import Mathlib

/- Verification of the blackjack game engine in blackjack.py.
   The card type, the deck, hand evaluation, betting, the player and dealer
   turns, settlement and the round pipeline are embedded as Lean functions;
   user input is modelled as explicit lists of input tokens. -/

namespace Blackjack

/-- A playing card as in class PokerCard: a suit (indexed 0..3 for the four
suit symbols), a value in 2..14 (14 is the ace), and a backside flag.
Python's flip does `self.backside = ~self.backside` with bitwise complement
on an int (False counts as 0), so the flag is an integer: 0 is falsy
(face up), `~0 = -1` is truthy (face down), `~(-1) = 0` again. -/
structure PokerCard where
  suit : Nat
  value : Nat
  backside : Int
  deriving DecidableEq, Repr

/-- PokerCard.flip: `self.backside = ~self.backside`; `~b = -b - 1`. -/
def PokerCard.flip (c : PokerCard) : PokerCard :=
  { c with backside := -c.backside - 1 }

/-- A card is shown face up exactly when its backside flag is falsy (0). -/
def PokerCard.faceUp (c : PokerCard) : Prop := c.backside = 0

/-- The ace loop of handValue, after `total += aces` has been applied:
for each ace, add another 10 if the running total stays at most 21. -/
def acesLoop (total : Nat) : Nat → Nat
  | 0 => total
  | n + 1 => if total + 10 ≤ 21 then acesLoop (total + 10) n else acesLoop total n

/-- handValue from blackjack.py: one pass over the cards accumulating the
non-ace total (each card counts `min 10 value`) and the ace count, then
`total += aces` followed by the ace promotion loop. -/
def handValue (cards : List PokerCard) : Nat :=
  let p := cards.foldl
    (fun (p : Nat × Nat) c =>
      if c.value ≠ 14 then (p.1 + min 10 c.value, p.2) else (p.1, p.2 + 1))
    (0, 0)
  acesLoop (p.1 + p.2) p.2

/-- Spec-side helper: the total contributed by the non-ace cards, each
counted as `min 10 value`. -/
def baseTotal (cards : List PokerCard) : Nat :=
  (cards.map (fun c => if c.value ≠ 14 then min 10 c.value else 0)).sum

/-- Spec-side helper: the number of aces (value 14) in the hand. -/
def aceCount (cards : List PokerCard) : Nat :=
  cards.countP (fun c => c.value = 14)

/-- Spec-side: the set of totals obtainable by counting each ace as either
1 or 11 and every other card as `min 10 value`; choosing j aces to count
as 11 yields `baseTotal + aceCount + 10*j`. -/
def aceTotals (cards : List PokerCard) : Finset Nat :=
  (Finset.range (aceCount cards + 1)).image
    (fun j => baseTotal cards + aceCount cards + 10 * j)

theorem handValue_foldl (cards : List PokerCard) (a b : Nat) :
    cards.foldl
      (fun (p : Nat × Nat) c =>
        if c.value ≠ 14 then (p.1 + min 10 c.value, p.2) else (p.1, p.2 + 1))
      (a, b)
    = (a + baseTotal cards, b + aceCount cards) := by
  induction cards generalizing a b with
  | nil => simp [baseTotal, aceCount]
  | cons c cs ih =>
    show List.foldl _ (if c.value ≠ 14 then (a + min 10 c.value, b) else (a, b + 1)) cs = _
    by_cases h : c.value = 14
    · rw [if_neg (not_not_intro h), ih]
      simp only [baseTotal, aceCount, List.map_cons, List.sum_cons,
        List.countP_cons, Prod.mk.injEq, if_neg (not_not_intro h)]
      constructor
      · omega
      · simp [h]
        omega
    · rw [if_pos h, ih]
      simp only [baseTotal, aceCount, List.map_cons, List.sum_cons,
        List.countP_cons, Prod.mk.injEq, if_pos h]
      constructor
      · omega
      · simp [h]

theorem handValue_eq_acesLoop (cards : List PokerCard) :
    handValue cards
      = acesLoop (baseTotal cards + aceCount cards) (aceCount cards) := by
  simp only [handValue]
  rw [handValue_foldl]
  simp

theorem acesLoop_high (n t : Nat) (ht : 12 ≤ t) : acesLoop t n = t := by
  induction n with
  | zero => rfl
  | succ n ih =>
    rw [acesLoop, if_neg (by omega)]
    exact ih

theorem acesLoop_closed (n t : Nat) (h : n ≤ t) :
    acesLoop t n = if t ≤ 11 ∧ 1 ≤ n then t + 10 else t := by
  cases n with
  | zero => simp [acesLoop]
  | succ n =>
    by_cases h11 : t ≤ 11
    · rw [acesLoop, if_pos (by omega), if_pos ⟨h11, by omega⟩]
      cases n with
      | zero => rfl
      | succ m => exact acesLoop_high _ _ (by omega)
    · rw [acesLoop, if_neg (by omega), if_neg (by omega)]
      exact acesLoop_high _ _ (by omega)

theorem aceCount_le_total (cards : List PokerCard) :
    aceCount cards ≤ baseTotal cards + aceCount cards :=
  Nat.le_add_left _ _

theorem handValue_closed (cards : List PokerCard) :
    handValue cards =
      if baseTotal cards + aceCount cards ≤ 11 ∧ 1 ≤ aceCount cards
      then baseTotal cards + aceCount cards + 10
      else baseTotal cards + aceCount cards := by
  rw [handValue_eq_acesLoop]
  exact acesLoop_closed _ _ (aceCount_le_total cards)

theorem baseTotal_perm {cards cards' : List PokerCard}
    (h : cards.Perm cards') : baseTotal cards = baseTotal cards' :=
  List.Perm.sum_eq (List.Perm.map _ h)

theorem aceCount_perm {cards cards' : List PokerCard}
    (h : cards.Perm cards') : aceCount cards = aceCount cards' :=
  List.Perm.countP_eq _ h

theorem handValue_perm {cards cards' : List PokerCard}
    (h : cards.Perm cards') : handValue cards = handValue cards' := by
  rw [handValue_closed, handValue_closed, baseTotal_perm h, aceCount_perm h]

/-- C2: handValue returns the maximum total ≤ 21 obtainable by counting
each ace as 1 or 11 and every other card as `min 10 rank`, or the minimum
such total when every choice of ace values exceeds 21; the result is
independent of the order of the cards, and an empty hand yields 0. -/
theorem handValue_best (cards : List PokerCard)
    (hranks : ∀ c ∈ cards, 2 ≤ c.value ∧ c.value ≤ 14) :
    handValue cards ∈ aceTotals cards
    ∧ (handValue cards ≤ 21 →
        ∀ t ∈ aceTotals cards, t ≤ 21 → t ≤ handValue cards)
    ∧ (21 < handValue cards → ∀ t ∈ aceTotals cards, handValue cards ≤ t)
    ∧ (∀ cards', cards.Perm cards' → handValue cards = handValue cards')
    ∧ handValue ([] : List PokerCard) = 0 := by
  have hA : aceCount cards ≤ baseTotal cards + aceCount cards :=
    aceCount_le_total cards
  rw [handValue_closed]
  refine ⟨?_, ?_, ?_, ?_, rfl⟩
  · by_cases h : baseTotal cards + aceCount cards ≤ 11 ∧ 1 ≤ aceCount cards
    · rw [if_pos h]
      refine Finset.mem_image.2 ⟨1, Finset.mem_range.2 (by omega), by ring⟩
    · rw [if_neg h]
      refine Finset.mem_image.2 ⟨0, Finset.mem_range.2 (by omega), by ring⟩
  · intro hle t ht ht21
    obtain ⟨j, hj, rfl⟩ := Finset.mem_image.1 ht
    rw [Finset.mem_range] at hj
    by_cases h : baseTotal cards + aceCount cards ≤ 11 ∧ 1 ≤ aceCount cards
    · rw [if_pos h] at hle ⊢
      omega
    · rw [if_neg h] at hle ⊢
      omega
  · intro hbust t ht
    obtain ⟨j, hj, rfl⟩ := Finset.mem_image.1 ht
    rw [Finset.mem_range] at hj
    by_cases h : baseTotal cards + aceCount cards ≤ 11 ∧ 1 ≤ aceCount cards
    · rw [if_pos h] at hbust ⊢
      omega
    · rw [if_neg h] at hbust ⊢
      omega
  · intro cards' hperm
    rw [← handValue_closed]
    exact handValue_perm hperm

/-- Witness for C2 at the spec's bust example: a 10, 10, 5 hand.  The claim
theorem applied at this hand shows handValue lies in the achievable totals,
and it evaluates to 25, the raw bust total, not clamped to 21. -/
theorem handValue_best_witness :
    handValue [⟨0, 10, 0⟩, ⟨1, 10, 0⟩, ⟨2, 5, 0⟩]
        ∈ aceTotals [⟨0, 10, 0⟩, ⟨1, 10, 0⟩, ⟨2, 5, 0⟩]
    ∧ handValue [⟨0, 10, 0⟩, ⟨1, 10, 0⟩, ⟨2, 5, 0⟩] = 25 :=
  ⟨(handValue_best _ (by decide)).1, by decide⟩

/-- One raw line typed at a betting prompt, abstracted by what the code
does with it: after upper/strip it is either the literal QUIT, a string
that float() parses (carrying the parsed amount as an exact rational), or
a string float() raises ValueError on. -/
inductive BetInp where
  | quit : BetInp
  | num : ℚ → BetInp
  | malformed : BetInp
  deriving DecidableEq, Repr

/-- How a call to getBet ends: a returned bet, a clean process exit
(the farewell print followed by sys.exit), or an uncaught ValueError from
float() escaping the function. -/
inductive BetOutcome where
  | ok : ℚ → BetOutcome
  | quitExit : BetOutcome
  | valueError : BetOutcome
  deriving DecidableEq, Repr

/-- The inner re-prompt loop of getBet: `while bet > maxBet or bet < 0.5:
bet = float(input(...))`.  The raw string is fed straight to float(), so a
QUIT typed here raises ValueError just like any other unparsable string.
Returns none when the input stream is exhausted. -/
def getBetInner (maxBet : ℚ) : List BetInp → Option BetOutcome
  | [] => none
  | BetInp.quit :: _ => some BetOutcome.valueError
  | BetInp.malformed :: _ => some BetOutcome.valueError
  | BetInp.num b :: rest =>
    if b > maxBet ∨ b < 1 / 2 then getBetInner maxBet rest
    else some (BetOutcome.ok b)

/-- getBet from blackjack.py over an explicit input stream: the first
prompt honours QUIT (farewell message, sys.exit), otherwise float() is
applied to the raw string (raising ValueError on malformed input); an
out-of-range amount enters the inner re-prompt loop, and an in-range
amount is returned. -/
def getBet (maxBet : ℚ) : List BetInp → Option BetOutcome
  | [] => none
  | BetInp.quit :: _ => some BetOutcome.quitExit
  | BetInp.malformed :: _ => some BetOutcome.valueError
  | BetInp.num b :: rest =>
    if b > maxBet ∨ b < 1 / 2 then getBetInner maxBet rest
    else some (BetOutcome.ok b)

theorem getBetInner_ok (maxBet b : ℚ) :
    ∀ inps, getBetInner maxBet inps = some (BetOutcome.ok b) →
      1 / 2 ≤ b ∧ b ≤ maxBet := by
  intro inps
  induction inps with
  | nil => intro h; simp [getBetInner] at h
  | cons i rest ih =>
    intro h
    cases i with
    | quit => simp [getBetInner] at h
    | malformed => simp [getBetInner] at h
    | num q =>
      rw [getBetInner] at h
      by_cases hc : q > maxBet ∨ q < 1 / 2
      · rw [if_pos hc] at h
        exact ih h
      · rw [if_neg hc] at h
        simp only [Option.some.injEq, BetOutcome.ok.injEq] at h
        push_neg at hc
        subst h
        exact ⟨hc.2, hc.1⟩

theorem getBet_ok (maxBet b : ℚ) :
    ∀ inps, getBet maxBet inps = some (BetOutcome.ok b) →
      1 / 2 ≤ b ∧ b ≤ maxBet := by
  intro inps h
  cases inps with
  | nil => simp [getBet] at h
  | cons i rest =>
    cases i with
    | quit => simp [getBet] at h
    | malformed => simp [getBet] at h
    | num q =>
      rw [getBet] at h
      by_cases hc : q > maxBet ∨ q < 1 / 2
      · rw [if_pos hc] at h
        exact getBetInner_ok maxBet b rest h
      · rw [if_neg hc] at h
        simp only [Option.some.injEq, BetOutcome.ok.injEq] at h
        push_neg at hc
        subst h
        exact ⟨hc.2, hc.1⟩

/-- C4 (counterexample): a malformed string at the first betting prompt is
handed straight to float(), whose ValueError escapes getBet instead of
being recovered by a re-prompt; and a QUIT typed at the in-range re-prompt
is also fed to float() and raises, rather than exiting cleanly. -/
theorem getBet_exception_escapes :
    getBet 10 [BetInp.malformed] = some BetOutcome.valueError
    ∧ getBet 10 [BetInp.num 20, BetInp.quit] = some BetOutcome.valueError := by
  constructor
  · rfl
  · norm_num [getBet, getBetInner]

/-- C4 (amended): when getBet returns a bet it lies in [0.50, maxBet], and
a QUIT at the first prompt always ends the process cleanly; but malformed
input (or a QUIT at the inner re-prompt) raises a ValueError that escapes
getBet rather than being recovered by a re-prompt. -/
theorem getBet_range_or_quit (maxBet : ℚ) (inps : List BetInp) :
    (∀ b, getBet maxBet inps = some (BetOutcome.ok b) →
      1 / 2 ≤ b ∧ b ≤ maxBet)
    ∧ (∀ rest, getBet maxBet (BetInp.quit :: rest) = some BetOutcome.quitExit) :=
  ⟨fun b h => getBet_ok maxBet b inps h, fun _ => rfl⟩

/-- Witness for C4's amended theorem: a bet of 2 against maxBet 10 is
returned and lies in the required range. -/
theorem getBet_range_or_quit_witness :
    getBet 10 [BetInp.num 2] = some (BetOutcome.ok 2)
    ∧ (1 / 2 ≤ (2 : ℚ) ∧ (2 : ℚ) ≤ 10) :=
  ⟨by norm_num [getBet],
   (getBet_range_or_quit 10 [BetInp.num 2]).1 2 (by norm_num [getBet])⟩

/-- One raw line typed at the move prompt, abstracted by what the code
compares it against after upper/strip: H, S, D, or anything else. -/
inductive MoveInp where
  | H : MoveInp
  | S : MoveInp
  | D : MoveInp
  | other : MoveInp
  deriving DecidableEq, Repr

/-- The Double-Down eligibility test of getMove: the moves set includes
Double down exactly when `len(cards) == 2 and money > 0`; the caller in
main passes `userMoney - bet` as money. -/
def dblAllowed (cards : List PokerCard) (money : ℚ) : Prop :=
  cards.length = 2 ∧ 0 < money

instance (cards : List PokerCard) (money : ℚ) :
    Decidable (dblAllowed cards money) :=
  instDecidableAnd

/-- getMove from blackjack.py over an explicit input stream: loops until
the input is H, S, or a D while Double down is among the offered moves;
anything else just re-prompts.  Returns none when the stream is
exhausted. -/
def getMove (cards : List PokerCard) (money : ℚ) :
    List MoveInp → Option MoveInp
  | [] => none
  | MoveInp.H :: _ => some MoveInp.H
  | MoveInp.S :: _ => some MoveInp.S
  | MoveInp.D :: rest =>
    if dblAllowed cards money then some MoveInp.D
    else getMove cards money rest
  | MoveInp.other :: rest => getMove cards money rest

/-- C6 (counterexample): with a 2-card hand, a bet of 5 and a bankroll of
6, main calls getMove with money = bankroll - bet = 1, and getMove accepts
the D input — yet the player cannot match an equal additional bet, since
the 5 required exceed the 1 available beyond the current bet. -/
theorem getMove_accepts_unmatchable_dbl :
    getMove [⟨0, 5, 0⟩, ⟨1, 6, 0⟩] 1 [MoveInp.D] = some MoveInp.D
    ∧ ¬ ((5 : ℚ) ≤ 6 - 5) := by
  constructor
  · norm_num [getMove, dblAllowed]
  · norm_num

/-- C6 (amended): getMove accepts a D input only when the hand has exactly
2 cards and the player has some positive amount of funds beyond the
current bet (not necessarily enough to match an equal additional bet); an
ineligible D is rejected by re-prompting on the remaining input, never by
raising a fault. -/
theorem getMove_dbl_gating (cards : List PokerCard) (money : ℚ) :
    (∀ inps, getMove cards money inps = some MoveInp.D →
      cards.length = 2 ∧ 0 < money)
    ∧ (∀ rest, ¬ dblAllowed cards money →
        getMove cards money (MoveInp.D :: rest) = getMove cards money rest) := by
  constructor
  · intro inps
    induction inps with
    | nil => intro h; simp [getMove] at h
    | cons i rest ih =>
      intro h
      cases i with
      | H => simp [getMove] at h
      | S => simp [getMove] at h
      | D =>
        rw [getMove] at h
        by_cases hd : dblAllowed cards money
        · exact hd
        · rw [if_neg hd] at h
          exact ih h
      | other =>
        rw [getMove] at h
        exact ih h
  · intro rest hd
    rw [getMove, if_neg hd]

/-- Witness for C6's amended theorem: a 2-card hand with money 1 beyond
the bet accepts D, and the theorem yields the eligibility facts. -/
theorem getMove_dbl_gating_witness :
    List.length [(⟨0, 5, 0⟩ : PokerCard), ⟨1, 6, 0⟩] = 2 ∧ (0 : ℚ) < 1 :=
  (getMove_dbl_gating [⟨0, 5, 0⟩, ⟨1, 6, 0⟩] 1).1 [MoveInp.D]
    (by norm_num [getMove, dblAllowed])

/-- The settlement chain at the end of main, applied to the final hand
values: dealer bust is checked first and pays the bet; otherwise a player
bust or a lower player total loses the bet; otherwise a higher player
total wins the bet; equal totals are a push. -/
def settle (finalUserVal finalDealVal : Nat) (bet money : ℚ) : ℚ :=
  if 21 < finalDealVal then money + bet
  else if 21 < finalUserVal ∨ finalUserVal < finalDealVal then money - bet
  else if finalDealVal < finalUserVal then money + bet
  else money

/-- C1 (code bug): at player total 23 and dealer total 24 — both bust —
the settlement chain tests the dealer bust first and pays the bet, so a
bankroll of 10 with a bet of 2 becomes 12 (a player win), while the claim
and the spec's stated precedence require a player-bust loss (8). -/
theorem settle_both_bust_pays_player : settle 23 24 2 10 = 12 := by
  norm_num [settle]

/-- C8: when neither final total exceeds 21, settlement pays the bet when
the player's total is higher, takes the bet when it is lower, and leaves
the bankroll unchanged on equal totals. -/
theorem settle_no_bust (u d : Nat) (bet money : ℚ)
    (hu : u ≤ 21) (hd : d ≤ 21) :
    (d < u → settle u d bet money = money + bet)
    ∧ (u < d → settle u d bet money = money - bet)
    ∧ (u = d → settle u d bet money = money) := by
  refine ⟨?_, ?_, ?_⟩ <;> intro h <;> simp only [settle]
  · rw [if_neg (by omega), if_neg (by omega), if_pos h]
  · rw [if_neg (by omega), if_pos (Or.inr h)]
  · rw [if_neg (by omega), if_neg (by omega), if_neg (by omega)]

/-- Witness for C8 at the spec's push scenario: totals 20 and 20 leave a
bankroll of 10 unchanged. -/
theorem settle_no_bust_witness : settle 20 20 2 10 = 10 :=
  (settle_no_bust 20 20 2 10 (by norm_num) (by norm_num)).2.2 rfl

/-- DeckofCards construction: 4 suits × values 2..14, face up, before
random.shuffle; the shuffled shoe is some permutation of this list. -/
def fullDeck : List PokerCard :=
  (List.range 4).flatMap (fun s => (List.range 13).map (fun i => ⟨s, i + 2, 0⟩))

/-- DeckofCards.deal: `self.cards.popleft()` removes and returns the front
card of the shoe; popping an empty deque raises, modelled as none. -/
def deal : List PokerCard → Option (PokerCard × List PokerCard)
  | [] => none
  | c :: s => some (c, s)

/-- DeckofCards.discard: `self.cards.extend(oldcards)` appends the given
cards at the back of the shoe, in the order given. -/
def discard (shoe oldcards : List PokerCard) : List PokerCard :=
  shoe ++ oldcards

/-- The dealer drawing loop of main: while the dealer total is below 17,
draw the front card and append it, breaking as soon as the total exceeds
21; none models drawing from an exhausted shoe. -/
def dealerLoop : List PokerCard → List PokerCard →
    Option (List PokerCard × List PokerCard)
  | hand, [] => if handValue hand < 17 then none else some (hand, [])
  | hand, c :: s =>
    if handValue hand < 17 then
      if 21 < handValue (hand ++ [c]) then some (hand ++ [c], s)
      else dealerLoop (hand ++ [c]) s
    else some (hand, c :: s)

/-- The dealer phase of main: the drawing loop runs under the guard
`if handValue(dealerHand) <= 21`. -/
def dealerPlay (hand shoe : List PokerCard) :
    Option (List PokerCard × List PokerCard) :=
  if handValue hand ≤ 21 then dealerLoop hand shoe else some (hand, shoe)

theorem dealerLoop_ge_17 :
    ∀ shoe hand h s, dealerLoop hand shoe = some (h, s) →
      17 ≤ handValue h := by
  intro shoe
  induction shoe with
  | nil =>
    intro hand h s hh
    rw [dealerLoop] at hh
    split at hh
    · simp at hh
    · simp only [Option.some.injEq, Prod.mk.injEq] at hh
      obtain ⟨rfl, rfl⟩ := hh
      omega
  | cons c rest ih =>
    intro hand h s hh
    rw [dealerLoop] at hh
    split at hh
    · split at hh
      · simp only [Option.some.injEq, Prod.mk.injEq] at hh
        obtain ⟨rfl, rfl⟩ := hh
        omega
      · exact ih _ _ _ hh
    · simp only [Option.some.injEq, Prod.mk.injEq] at hh
      obtain ⟨rfl, rfl⟩ := hh
      omega

/-- C7: whenever the dealer phase completes, the dealer's final total is
at least 17; and when the dealer already holds 17 or more the phase draws
nothing, returning hand and shoe untouched. -/
theorem dealer_final_at_least_17 (hand shoe : List PokerCard) :
    (∀ h s, dealerPlay hand shoe = some (h, s) → 17 ≤ handValue h)
    ∧ (17 ≤ handValue hand → dealerPlay hand shoe = some (hand, shoe)) := by
  constructor
  · intro h s hh
    simp only [dealerPlay] at hh
    split at hh
    · exact dealerLoop_ge_17 shoe hand h s hh
    · simp only [Option.some.injEq, Prod.mk.injEq] at hh
      obtain ⟨rfl, rfl⟩ := hh
      omega
  · intro h17
    simp only [dealerPlay]
    by_cases h21 : handValue hand ≤ 21
    · rw [if_pos h21]
      cases shoe with
      | nil => rw [dealerLoop, if_neg (by omega)]
      | cons c s => rw [dealerLoop, if_neg (by omega)]
    · rw [if_neg h21]

/-- Witness for C7: a dealer hand of 10 and 9 (total 19) draws nothing and
the completed phase indeed shows a total of at least 17. -/
theorem dealer_final_at_least_17_witness :
    dealerPlay [⟨0, 10, 0⟩, ⟨1, 9, 0⟩] []
      = some ([⟨0, 10, 0⟩, ⟨1, 9, 0⟩], [])
    ∧ 17 ≤ handValue [⟨0, 10, 0⟩, ⟨1, 9, 0⟩] :=
  ⟨(dealer_final_at_least_17 _ _).2 (by decide),
   (dealer_final_at_least_17 [⟨0, 10, 0⟩, ⟨1, 9, 0⟩] []).1 _ _
     ((dealer_final_at_least_17 _ _).2 (by decide))⟩

/-- A player decision as validated by getMove, carrying for Double down
the betting input stream consumed by the inner getBet call. -/
inductive PMove where
  | hit : PMove
  | stand : PMove
  | dbl : List BetInp → PMove

/-- The player-turn state: the player's hand, the shoe it draws from, and
the current bet. -/
structure PTState where
  hand : List PokerCard
  shoe : List PokerCard
  bet : ℚ
  deriving DecidableEq, Repr

/-- The player action loop of main over an explicit list of validated
moves.  Each iteration first breaks on a bust or on exactly 21; a hit
draws one card and loops; Double down runs getBet capped at
`min(bet, money - bet)`, adds the returned amount to the bet, draws one
card and ends the turn (a bust after the draw re-enters the loop head via
continue and breaks there; otherwise the `userMove in ('S','D')` test
breaks); a stand breaks at once.  none models an exhausted input stream,
an exhausted shoe, or an inner getBet call that did not return an
amount. -/
def playerTurn (money : ℚ) : List PMove → PTState → Option PTState
  | [], st =>
    if 21 < handValue st.hand then some st
    else if handValue st.hand = 21 then some st
    else none
  | m :: rest, st =>
    if 21 < handValue st.hand then some st
    else if handValue st.hand = 21 then some st
    else
      match m with
      | PMove.stand => some st
      | PMove.hit =>
        match st.shoe with
        | [] => none
        | c :: s => playerTurn money rest ⟨st.hand ++ [c], s, st.bet⟩
      | PMove.dbl inps =>
        match getBet (min st.bet (money - st.bet)) inps with
        | some (BetOutcome.ok a) =>
          match st.shoe with
          | [] => none
          | c :: s => some ⟨st.hand ++ [c], s, st.bet + a⟩
        | _ => none

/-- C5: when the player chooses Double down mid-turn, the additional
amount is what the inner getBet call returns, hence at most
`min(bet, money - bet)`; the bet increases by exactly that amount, exactly
one card is drawn, and the turn ends at once — the remaining moves are
never consumed, whatever the resulting total. -/
theorem double_down_spec (money a : ℚ) (st : PTState) (inps : List BetInp)
    (rest rest' : List PMove) (c : PokerCard) (s : List PokerCard)
    (hhv : handValue st.hand < 21) (hshoe : st.shoe = c :: s)
    (hbet : getBet (min st.bet (money - st.bet)) inps
      = some (BetOutcome.ok a)) :
    playerTurn money (PMove.dbl inps :: rest) st
      = some ⟨st.hand ++ [c], s, st.bet + a⟩
    ∧ a ≤ min st.bet (money - st.bet)
    ∧ playerTurn money (PMove.dbl inps :: rest) st
      = playerTurn money (PMove.dbl inps :: rest') st := by
  have h1 : ¬ 21 < handValue st.hand := by omega
  have h2 : ¬ handValue st.hand = 21 := by omega
  have hrun : ∀ r : List PMove,
      playerTurn money (PMove.dbl inps :: r) st
        = some ⟨st.hand ++ [c], s, st.bet + a⟩ := by
    intro r
    rw [playerTurn, if_neg h1, if_neg h2]
    simp only [hbet, hshoe]
  exact ⟨hrun rest, (getBet_ok _ a inps hbet).2, (hrun rest).trans (hrun rest').symm⟩

/-- Witness for C5: a hand of 5 and 6 with bet 2 and bankroll 10 doubles
down with 2 more; the bet becomes 4, exactly one card is drawn, and the
turn ends. -/
theorem double_down_spec_witness :
    playerTurn 10 [PMove.dbl [BetInp.num 2]]
        ⟨[⟨0, 5, 0⟩, ⟨1, 6, 0⟩], [⟨2, 9, 0⟩], 2⟩
      = some ⟨[⟨0, 5, 0⟩, ⟨1, 6, 0⟩, ⟨2, 9, 0⟩], [], 4⟩
    ∧ (2 : ℚ) ≤ min 2 (10 - 2) :=
  let h := double_down_spec 10 2 ⟨[⟨0, 5, 0⟩, ⟨1, 6, 0⟩], [⟨2, 9, 0⟩], 2⟩
    [BetInp.num 2] [] [] ⟨2, 9, 0⟩ []
    (by decide) rfl (by norm_num [getBet])
  ⟨by rw [h.1]; norm_num, h.2.1⟩

/-- The combined card state of a round: the shoe and the two hands. -/
structure GameState where
  shoe : List PokerCard
  dealerHand : List PokerCard
  playerHand : List PokerCard
  deriving DecidableEq, Repr

/-- Every card movement a round of main performs, as one atomic step:
dealing the front card of the shoe to a hand (the dealer's first card is
dealt flipped face down), flipping the dealer's first card at the reveal,
and the end-of-round discard of both hands (dealer's cards first) to the
back of the shoe. -/
inductive Step : GameState → GameState → Prop
  | dealDealerDown (c : PokerCard) (s d p : List PokerCard) :
      Step ⟨c :: s, d, p⟩ ⟨s, d ++ [c.flip], p⟩
  | dealDealer (c : PokerCard) (s d p : List PokerCard) :
      Step ⟨c :: s, d, p⟩ ⟨s, d ++ [c], p⟩
  | dealPlayer (c : PokerCard) (s d p : List PokerCard) :
      Step ⟨c :: s, d, p⟩ ⟨s, d, p ++ [c]⟩
  | reveal (c : PokerCard) (s d p : List PokerCard) :
      Step ⟨s, c :: d, p⟩ ⟨s, c.flip :: d, p⟩
  | discard (s d p : List PokerCard) :
      Step ⟨s, d, p⟩ ⟨s ++ (d ++ p), [], []⟩

/-- The (suit, value) identity of a card, stable under flips. -/
def cardId (c : PokerCard) : Nat × Nat := (c.suit, c.value)

/-- The multiset of card identities across the shoe and both hands. -/
def ids (st : GameState) : Multiset (Nat × Nat) :=
  ((st.shoe ++ st.dealerHand ++ st.playerHand).map cardId : List (Nat × Nat))

theorem cardId_flip (c : PokerCard) : cardId c.flip = cardId c := rfl

theorem step_ids {s t : GameState} (h : Step s t) : ids t = ids s := by
  cases h <;>
    simp only [ids, List.map_append, List.map_cons, List.map_nil,
      cardId_flip, ← Multiset.coe_add, ← Multiset.cons_coe,
      ← Multiset.singleton_add, Multiset.coe_nil, add_zero] <;>
    abel

/-- The number of cards across the shoe and both hands. -/
def numCards (st : GameState) : Nat :=
  st.shoe.length + st.dealerHand.length + st.playerHand.length

theorem numCards_eq_card_ids (st : GameState) :
    numCards st = Multiset.card (ids st) := by
  simp [numCards, ids]
  omega

/-- C3: from a fresh shuffled deck with empty hands, every sequence of
round steps preserves the multiset of the 52 (suit, value) cards, and the
shoe, dealer hand and player hand always hold 52 cards in total. -/
theorem round_conservation (s0 s : GameState)
    (hreach : Relation.ReflTransGen Step s0 s)
    (hperm : s0.shoe.Perm fullDeck)
    (hd : s0.dealerHand = []) (hp : s0.playerHand = []) :
    ids s = ((fullDeck.map cardId : List (Nat × Nat)) : Multiset (Nat × Nat))
    ∧ numCards s = 52 := by
  have hids : ids s
      = ((fullDeck.map cardId : List (Nat × Nat)) : Multiset (Nat × Nat)) := by
    induction hreach with
    | refl =>
      simp only [ids, hd, hp, List.append_nil]
      exact Multiset.coe_eq_coe.2 (List.Perm.map _ hperm)
    | tail _ hstep ih => rw [step_ids hstep, ih]
  refine ⟨hids, ?_⟩
  rw [numCards_eq_card_ids, hids]
  rfl

/-- Witness for C3 at the initial state itself: the unshuffled full deck
with empty hands is reachable in zero steps, carries exactly the 52-card
identity multiset, and counts 52 cards. -/
theorem round_conservation_witness :
    ids ⟨fullDeck, [], []⟩
      = ((fullDeck.map cardId : List (Nat × Nat)) : Multiset (Nat × Nat))
    ∧ numCards ⟨fullDeck, [], []⟩ = 52 :=
  round_conservation ⟨fullDeck, [], []⟩ ⟨fullDeck, [], []⟩
    Relation.ReflTransGen.refl (List.Perm.refl _) rfl rfl

/-- The reveal in displayCards when showDealer is true:
`firstSet[0] = firstSet[0].flip()` flips the dealer's first card. -/
def flipHead : List PokerCard → List PokerCard
  | [] => []
  | c :: r => c.flip :: r

theorem flip_flip (c : PokerCard) : c.flip.flip = c := by
  cases c with
  | mk suit value backside => simp [PokerCard.flip]

/-- One full round of main over explicit input streams, starting from a
bankroll and a shoe: getBet against the whole bankroll, the deal in shoe
order — dealer (flipped face down), dealer, player, player — the player
action loop, the dealer phase, the reveal of the dealer's first card at
the final display, settlement on the final hand values, and the discard
of the dealer's then the player's cards to the back of the shoe.  Returns
the new bankroll and the new shoe; none models a quit, an uncaught
ValueError, or an exhausted input stream or shoe. -/
def playRound (money : ℚ) (betInps : List BetInp) (moves : List PMove)
    (shoe : List PokerCard) : Option (ℚ × List PokerCard) :=
  match getBet money betInps with
  | some (BetOutcome.ok bet) =>
    match shoe with
    | c1 :: c2 :: c3 :: c4 :: rest =>
      match playerTurn money moves ⟨[c3, c4], rest, bet⟩ with
      | some pSt =>
        match dealerPlay [c1.flip, c2] pSt.shoe with
        | some (dHand, shoe2) =>
          some (settle (handValue pSt.hand) (handValue (flipHead dHand))
              pSt.bet money,
            discard shoe2 (flipHead dHand ++ pSt.hand))
        | none => none
      | none => none
    | _ => none
  | _ => none

theorem playRound_inv (money m2 : ℚ) (betInps : List BetInp)
    (moves : List PMove) (shoe shoe2 : List PokerCard)
    (hrun : playRound money betInps moves shoe = some (m2, shoe2)) :
    ∃ bet c1 c2 c3 c4 rest pSt dHand s2,
      getBet money betInps = some (BetOutcome.ok bet)
      ∧ shoe = c1 :: c2 :: c3 :: c4 :: rest
      ∧ playerTurn money moves ⟨[c3, c4], rest, bet⟩ = some pSt
      ∧ dealerPlay [c1.flip, c2] pSt.shoe = some (dHand, s2)
      ∧ m2 = settle (handValue pSt.hand) (handValue (flipHead dHand))
          pSt.bet money
      ∧ shoe2 = discard s2 (flipHead dHand ++ pSt.hand) := by
  simp only [playRound] at hrun
  split at hrun
  · rename_i bet hbet
    split at hrun
    · rename_i c1 c2 c3 c4 rest
      split at hrun
      · rename_i pSt hpt
        split at hrun
        · rename_i dHand s2 hdp
          simp only [Option.some.injEq, Prod.mk.injEq] at hrun
          exact ⟨bet, c1, c2, c3, c4, rest, pSt, dHand, s2, hbet, rfl, hpt,
            hdp, hrun.1.symm, hrun.2.symm⟩
        · simp at hrun
      · simp at hrun
    · simp at hrun
  · simp at hrun

theorem playerTurn_cards (money : ℚ) :
    ∀ (moves : List PMove) (st st' : PTState),
      playerTurn money moves st = some st' →
      (∀ c, c ∈ st'.hand → c ∈ st.hand ∨ c ∈ st.shoe)
      ∧ (∀ c, c ∈ st'.shoe → c ∈ st.shoe) := by
  intro moves
  induction moves with
  | nil =>
    intro st st' h
    rw [playerTurn] at h
    split at h
    · simp only [Option.some.injEq] at h
      subst h
      exact ⟨fun c hc => Or.inl hc, fun c hc => hc⟩
    · split at h
      · simp only [Option.some.injEq] at h
        subst h
        exact ⟨fun c hc => Or.inl hc, fun c hc => hc⟩
      · simp at h
  | cons m rest ih =>
    intro st st' h
    cases m with
    | stand =>
      rw [playerTurn] at h
      split at h
      · simp only [Option.some.injEq] at h
        subst h
        exact ⟨fun c hc => Or.inl hc, fun c hc => hc⟩
      · split at h <;> simp only [Option.some.injEq] at h <;> subst h <;>
          exact ⟨fun c hc => Or.inl hc, fun c hc => hc⟩
    | hit =>
      rw [playerTurn] at h
      split at h
      · simp only [Option.some.injEq] at h
        subst h
        exact ⟨fun c hc => Or.inl hc, fun c hc => hc⟩
      · split at h
        · simp only [Option.some.injEq] at h
          subst h
          exact ⟨fun c hc => Or.inl hc, fun c hc => hc⟩
        · split at h
          · simp at h
          · rename_i c s hs
            obtain ⟨ihh, ihs⟩ := ih _ _ h
            constructor
            · intro x hx
              rcases ihh x hx with hx' | hx'
              · simp only [List.mem_append, List.mem_singleton] at hx'
                rcases hx' with hx'' | hx''
                · exact Or.inl hx''
                · subst hx''
                  exact Or.inr (by rw [hs]; exact List.mem_cons_self _ _)
              · exact Or.inr (by rw [hs]; exact List.mem_cons_of_mem _ hx')
            · intro x hx
              rw [hs]
              exact List.mem_cons_of_mem _ (ihs x hx)
    | dbl inps =>
      rw [playerTurn] at h
      split at h
      · simp only [Option.some.injEq] at h
        subst h
        exact ⟨fun c hc => Or.inl hc, fun c hc => hc⟩
      · split at h
        · simp only [Option.some.injEq] at h
          subst h
          exact ⟨fun c hc => Or.inl hc, fun c hc => hc⟩
        · split at h
          · rename_i a hg
            split at h
            · simp at h
            · rename_i c s hs
              simp only [Option.some.injEq] at h
              subst h
              constructor
              · intro x hx
                simp only [List.mem_append, List.mem_singleton] at hx
                rcases hx with hx' | hx'
                · exact Or.inl hx'
                · subst hx'
                  exact Or.inr (by rw [hs]; exact List.mem_cons_self _ _)
              · intro x hx
                rw [hs]
                exact List.mem_cons_of_mem _ hx
          · simp at h

theorem dealerLoop_cards :
    ∀ (shoe hand h s : List PokerCard),
      dealerLoop hand shoe = some (h, s) →
      (∃ t, h = hand ++ t ∧ ∀ c, c ∈ t → c ∈ shoe)
      ∧ (∀ c, c ∈ s → c ∈ shoe) := by
  intro shoe
  induction shoe with
  | nil =>
    intro hand h s hh
    rw [dealerLoop] at hh
    split at hh
    · simp at hh
    · simp only [Option.some.injEq, Prod.mk.injEq] at hh
      obtain ⟨rfl, rfl⟩ := hh
      exact ⟨⟨[], by simp, by simp⟩, by simp⟩
  | cons c rest ih =>
    intro hand h s hh
    rw [dealerLoop] at hh
    split at hh
    · split at hh
      · simp only [Option.some.injEq, Prod.mk.injEq] at hh
        obtain ⟨rfl, rfl⟩ := hh
        refine ⟨⟨[c], rfl, by simp⟩, fun x hx => List.mem_cons_of_mem _ hx⟩
      · obtain ⟨⟨t, rfl, ht⟩, hs⟩ := ih _ _ _ hh
        refine ⟨⟨c :: t, by simp, ?_⟩,
          fun x hx => List.mem_cons_of_mem _ (hs x hx)⟩
        intro x hx
        rcases List.mem_cons.1 hx with rfl | hx'
        · exact List.mem_cons_self _ _
        · exact List.mem_cons_of_mem _ (ht x hx')
    · simp only [Option.some.injEq, Prod.mk.injEq] at hh
      obtain ⟨rfl, rfl⟩ := hh
      exact ⟨⟨[], by simp, by simp⟩, fun x hx => hx⟩

theorem dealerPlay_cards (hand shoe h s : List PokerCard)
    (hh : dealerPlay hand shoe = some (h, s)) :
    (∃ t, h = hand ++ t ∧ ∀ c, c ∈ t → c ∈ shoe)
    ∧ (∀ c, c ∈ s → c ∈ shoe) := by
  simp only [dealerPlay] at hh
  split at hh
  · exact dealerLoop_cards shoe hand h s hh
  · simp only [Option.some.injEq, Prod.mk.injEq] at hh
    obtain ⟨rfl, rfl⟩ := hh
    exact ⟨⟨[], by simp, by simp⟩, fun x hx => hx⟩

/-- C9: a round that starts from a shoe whose cards are all face up ends
with every card of the returned shoe — in particular every card of the
two discarded hands — face up again: the dealer's hidden first card,
flipped face down at the deal, is flipped back exactly once at the final
reveal, so no stale face-down flag carries into a later round's deal. -/
theorem faces_reset (money m2 : ℚ) (betInps : List BetInp)
    (moves : List PMove) (shoe shoe2 : List PokerCard)
    (hfaces : ∀ c ∈ shoe, c.backside = 0)
    (hrun : playRound money betInps moves shoe = some (m2, shoe2)) :
    ∀ c ∈ shoe2, c.backside = 0 := by
  obtain ⟨bet, c1, c2, c3, c4, rest, pSt, dHand, s2, hbet, hshoe, hpt, hdp,
    hm, hs2⟩ := playRound_inv money m2 betInps moves shoe shoe2 hrun
  subst hshoe
  subst hs2
  obtain ⟨hPhand, hPshoe⟩ := playerTurn_cards money moves _ pSt hpt
  obtain ⟨⟨t, hdh, ht⟩, hs2mem⟩ := dealerPlay_cards _ _ _ _ hdp
  have hrest : ∀ c ∈ rest, c.backside = 0 := by
    intro c hc
    exact hfaces c (by simp [hc])
  have hPshoe0 : ∀ c ∈ pSt.shoe, c.backside = 0 := by
    intro c hc
    exact hrest c (hPshoe c hc)
  intro c hc
  simp only [discard, List.mem_append] at hc
  rcases hc with hc | hc
  · exact hPshoe0 c (hs2mem c hc)
  · rcases hc with hc | hc
    · rw [hdh] at hc
      have : flipHead (([c1.flip, c2] ++ t)) = c1 :: c2 :: t := by
        simp only [List.cons_append, List.nil_append, flipHead, flip_flip]
      rw [this] at hc
      rcases List.mem_cons.1 hc with rfl | hc'
      · exact hfaces c (by simp)
      · rcases List.mem_cons.1 hc' with rfl | hc''
        · exact hfaces c (by simp)
        · exact hPshoe0 c (ht c hc'')
    · rcases hPhand c hc with hc' | hc'
      · rcases List.mem_cons.1 hc' with rfl | hc''
        · exact hfaces c (by simp)
        · simp only [List.mem_singleton] at hc''
          subst hc''
          exact hfaces c (by simp)
      · exact hrest c hc'

/-- Witness for C9: a concrete round — bet 2 from bankroll 10, a 5+6
player hand standing at once against a dealer 10+9 — returns the shoe
with every card face up, the dealer's once-hidden first card included. -/
theorem faces_reset_witness :
    playRound 10 [BetInp.num 2] [PMove.stand]
        [⟨0, 10, 0⟩, ⟨1, 9, 0⟩, ⟨2, 5, 0⟩, ⟨3, 6, 0⟩]
      = some (8, [⟨0, 10, 0⟩, ⟨1, 9, 0⟩, ⟨2, 5, 0⟩, ⟨3, 6, 0⟩])
    ∧ (⟨0, 10, 0⟩ : PokerCard).backside = 0 := by
  have hrun : playRound 10 [BetInp.num 2] [PMove.stand]
      [⟨0, 10, 0⟩, ⟨1, 9, 0⟩, ⟨2, 5, 0⟩, ⟨3, 6, 0⟩]
      = some (8, [⟨0, 10, 0⟩, ⟨1, 9, 0⟩, ⟨2, 5, 0⟩, ⟨3, 6, 0⟩]) := by
    norm_num [playRound, playerTurn, dealerPlay, dealerLoop, getBet,
      flipHead, discard, settle, handValue, acesLoop, PokerCard.flip,
      List.foldl_cons, List.foldl_nil]
  exact ⟨hrun,
    faces_reset 10 8 [BetInp.num 2] [PMove.stand] _ _ (by decide) hrun
      ⟨0, 10, 0⟩ (by decide)⟩

theorem playerTurn_bet (money : ℚ) :
    ∀ (moves : List PMove) (st st' : PTState),
      playerTurn money moves st = some st' →
      st.bet ≤ st'.bet ∧ st'.bet ≤ max st.bet money := by
  intro moves
  induction moves with
  | nil =>
    intro st st' h
    rw [playerTurn] at h
    split at h
    · simp only [Option.some.injEq] at h
      subst h
      exact ⟨le_refl _, le_max_left _ _⟩
    · split at h
      · simp only [Option.some.injEq] at h
        subst h
        exact ⟨le_refl _, le_max_left _ _⟩
      · simp at h
  | cons m rest ih =>
    intro st st' h
    cases m with
    | stand =>
      rw [playerTurn] at h
      split at h
      · simp only [Option.some.injEq] at h
        subst h
        exact ⟨le_refl _, le_max_left _ _⟩
      · split at h <;> simp only [Option.some.injEq] at h <;> subst h <;>
          exact ⟨le_refl _, le_max_left _ _⟩
    | hit =>
      rw [playerTurn] at h
      split at h
      · simp only [Option.some.injEq] at h
        subst h
        exact ⟨le_refl _, le_max_left _ _⟩
      · split at h
        · simp only [Option.some.injEq] at h
          subst h
          exact ⟨le_refl _, le_max_left _ _⟩
        · split at h
          · simp at h
          · rename_i c s hs
            exact ih ⟨st.hand ++ [c], s, st.bet⟩ st' h
    | dbl inps =>
      rw [playerTurn] at h
      split at h
      · simp only [Option.some.injEq] at h
        subst h
        exact ⟨le_refl _, le_max_left _ _⟩
      · split at h
        · simp only [Option.some.injEq] at h
          subst h
          exact ⟨le_refl _, le_max_left _ _⟩
        · split at h
          · rename_i a hg
            split at h
            · simp at h
            · simp only [Option.some.injEq] at h
              subst h
              have hb := getBet_ok _ a inps hg
              have ha0 : (0 : ℚ) < a := lt_of_lt_of_le (by norm_num) hb.1
              have ha2 : a ≤ money - st.bet :=
                le_trans hb.2 (min_le_right _ _)
              constructor
              · simp only
                linarith
              · simp only
                have : st.bet + a ≤ money := by linarith
                exact le_trans this (le_max_right _ _)
          · simp at h

/-- C10: the bet returned by getBet against the bankroll is at most the
bankroll; the player loop never raises the bet beyond a bankroll it
started within (a double-down adds at most `money - bet`); hence a
completed round from a positive bankroll never settles to a negative
bankroll, even when the round is lost. -/
theorem bankroll_never_negative (money : ℚ) :
    (∀ (inps : List BetInp) (b : ℚ),
      getBet money inps = some (BetOutcome.ok b) → b ≤ money)
    ∧ (∀ (moves : List PMove) (st st' : PTState),
        st.bet ≤ money → playerTurn money moves st = some st' →
        st'.bet ≤ money)
    ∧ (∀ (betInps : List BetInp) (moves : List PMove)
        (shoe shoe2 : List PokerCard) (m2 : ℚ), 0 < money →
        playRound money betInps moves shoe = some (m2, shoe2) →
        0 ≤ m2) := by
  refine ⟨fun inps b hb => (getBet_ok money b inps hb).2, ?_, ?_⟩
  · intro moves st st' hle h
    exact le_trans ((playerTurn_bet money moves st st' h).2)
      (max_le hle (le_refl _))
  · intro betInps moves shoe shoe2 m2 hm hrun
    obtain ⟨bet, c1, c2, c3, c4, rest, pSt, dHand, s2, hbet, hshoe, hpt,
      hdp, hm2, hs2⟩ := playRound_inv money m2 betInps moves shoe shoe2 hrun
    have hbr := getBet_ok money bet betInps hbet
    have hb1 := (playerTurn_bet money moves _ pSt hpt).1
    have hb2 := (playerTurn_bet money moves _ pSt hpt).2
    have hple : pSt.bet ≤ money := by
      refine le_trans hb2 (max_le ?_ (le_refl _))
      exact hbr.2
    have hpos : (0 : ℚ) < pSt.bet := by
      have : (0 : ℚ) < bet := lt_of_lt_of_le (by norm_num) hbr.1
      exact lt_of_lt_of_le this hb1
    subst hm2
    simp only [settle]
    split
    · linarith
    · split
      · linarith
      · split
        · linarith
        · linarith

/-- Witness for C10: with a bankroll of 20, a bet of 3 is within the
bankroll, and a concrete winning round settles at 23, not below zero. -/
theorem bankroll_never_negative_witness :
    (3 : ℚ) ≤ 20 ∧ (0 : ℚ) ≤ 23 :=
  ⟨(bankroll_never_negative 20).1 [BetInp.num 3] 3 (by norm_num [getBet]),
   (bankroll_never_negative 20).2.2 [BetInp.num 3] [PMove.stand]
     [⟨0, 10, 0⟩, ⟨1, 8, 0⟩, ⟨2, 10, 0⟩, ⟨3, 9, 0⟩]
     [⟨0, 10, 0⟩, ⟨1, 8, 0⟩, ⟨2, 10, 0⟩, ⟨3, 9, 0⟩] 23 (by norm_num)
     (by norm_num [playRound, playerTurn, dealerPlay, dealerLoop, getBet,
       flipHead, discard, settle, handValue, acesLoop, PokerCard.flip,
       List.foldl_cons, List.foldl_nil])⟩

end Blackjack
